import Mathlib

/-!
Verification of the expression-interpreter core of `src/main.go` (the
"smart calculator"): operator normalization, tokenization, shunting-yard
infix-to-postfix conversion, postfix evaluation against a variable store,
and the assignment handler.

Modelling conventions:
* Go strings are modelled as `List Char` (Go code iterates runes).
* Go `int` (64-bit) arithmetic is modelled on `Int` with an explicit
  two's-complement wrap `wrap64` at every arithmetic operation.
* The Go global `variables` map is modelled as `Store := List Char → Option Int`;
  functions that in Go could mutate it are written state-passing, returning
  the (possibly updated) store.
* `int(math.Pow(float64(a), float64(b)))` in the evaluator is a float64
  computation; it is abstracted as an explicit parameter
  `ipow : Int → Int → Int` of the evaluator.  Theorems that depend on `^`
  carry hypotheses stating the values `ipow` takes at the concrete operand
  pairs involved (values at which `math.Pow` is exact).
* Go `for`-loops over strings that shrink their argument
  (`normalizeOperators`) are modelled with fuel `length + 1`: every
  iteration of the Go loop removes at least one character, so the fuel is
  never exhausted before the loop's own exit condition holds.
-/

abbrev Str := List Char

abbrev Store := Str → Option Int

/-- The error values produced with `fmt.Errorf` in `main.go`
("Invalid expression", "Unknown variable", "Division by zero",
"Invalid identifier"). -/
inductive GoErr where
  | invalidExpression
  | unknownVariable
  | divisionByZero
  | invalidIdentifier
deriving DecidableEq, Repr

/-- Result of an evaluation: the `(int, error)` pair returned by the Go
functions, with `err ≠ nil` collapsed to the error value. -/
inductive Res where
  | ok (v : Int)
  | err (e : GoErr)
deriving DecidableEq, Repr

/-- Check for the ASCII decimal digits that
`strconv.Atoi` accepts. -/
def isDigitC (c : Char) : Bool := 48 ≤ c.toNat && c.toNat ≤ 57

/-- Models Go `unicode.IsLetter` (Unicode category L).  The full Unicode
tables are impractical to embed; this models the ASCII range exactly and
additionally the Greek letter ranges (U+0391–U+03A1, U+03A3–U+03A9,
U+03B1–U+03C9), which is faithful for every character the theorems below
mention.  What matters for the claims: all ASCII letters are letters, no
ASCII digit / punctuation / underscore is a letter, and some non-Latin
characters (for instance 'α') are letters. -/
def goIsLetter (c : Char) : Bool :=
  (65 ≤ c.toNat && c.toNat ≤ 90) || (97 ≤ c.toNat && c.toNat ≤ 122) ||
  (0x391 ≤ c.toNat && c.toNat ≤ 0x3A1) || (0x3A3 ≤ c.toNat && c.toNat ≤ 0x3A9) ||
  (0x3B1 ≤ c.toNat && c.toNat ≤ 0x3C9)

/-- Function `isValidIdentifier` from `main.go` lines 34–41: every rune a letter,
and the string non-empty. -/
def isValidIdentifier (s : Str) : Bool :=
  s.all goIsLetter && decide (0 < s.length)

/-- Numeric value of a digit string (the accumulating loop inside
`strconv.Atoi`), with no range check. -/
def digitsVal (l : Str) : Nat :=
  l.foldl (fun a c => a * 10 + (c.toNat - 48)) 0

/-- The digits part of `strconv.Atoi`: `some` of the value when the string
is a non-empty run of ASCII digits, `none` otherwise. -/
def digitsToNat? (l : Str) : Option Nat :=
  if l ≠ [] ∧ l.all isDigitC then some (digitsVal l) else none

/-- Models `strconv.Atoi` on a 64-bit platform: optional single leading
sign, then decimal digits; errors (`none`) on empty digits, non-digit
characters, or a value outside `[-2^63, 2^63 - 1]`. -/
def atoi (l : Str) : Option Int :=
  match l with
  | [] => none
  | c :: rest =>
    if c = '-' then
      (digitsToNat? rest).bind fun n =>
        if n ≤ 2 ^ 63 then some (-(n : Int)) else none
    else if c = '+' then
      (digitsToNat? rest).bind fun n =>
        if n ≤ 2 ^ 63 - 1 then some (n : Int) else none
    else
      (digitsToNat? l).bind fun n =>
        if n ≤ 2 ^ 63 - 1 then some (n : Int) else none

/-- Function `isNumber` from `main.go` lines 59–62: `strconv.Atoi` succeeds. -/
def isNumber (s : Str) : Bool := (atoi s).isSome

/-- Function `resolveValue` from `main.go` lines 44–56, with the store passed
explicitly instead of read from the global map. -/
def resolveValue (store : Store) (tok : Str) : Res :=
  if isNumber tok then .ok ((atoi tok).getD 0)
  else if isValidIdentifier tok then
    match store tok with
    | some v => .ok v
    | none => .err .unknownVariable
  else .err .invalidIdentifier

/-- Function `precedence` from `main.go` lines 16–26. -/
def precedence (t : Str) : Nat :=
  if t = ['^'] then 3
  else if t = ['*'] ∨ t = ['/'] then 2
  else if t = ['+'] ∨ t = ['-'] then 1
  else 0

/-- Function `isRightAssociative` from `main.go` lines 29–31. -/
def isRightAssociative (t : Str) : Bool := t = ['^']

/-- One pass of Go `strings.ReplaceAll` for a two-character pattern `xy`
replaced by the single character `z`: leftmost-first, non-overlapping,
scanning forward past each replacement. -/
def repl2 (x y z : Char) : Str → Str
  | a :: b :: rest =>
    if a = x ∧ b = y then z :: repl2 x y z rest
    else a :: repl2 x y z (b :: rest)
  | l => l

/-- Go `strings.Contains` for a two-character pattern. -/
def contains2 (x y : Char) : Str → Bool
  | a :: b :: rest => (a = x ∧ b = y : Bool) || contains2 x y (b :: rest)
  | _ => false

/-- The `for strings.Contains { ReplaceAll }` loops of `normalizeOperators`,
with fuel.  Each iteration of the Go loop shortens the string by at least
one character (see `repl2_length_lt`), so fuel `length + 1` always reaches
the loop's exit condition. -/
def replLoopF (x y z : Char) : Nat → Str → Str
  | 0, l => l
  | fuel + 1, l => if contains2 x y l then replLoopF x y z fuel (repl2 x y z l) else l

def replLoop (x y z : Char) (l : Str) : Str := replLoopF x y z (l.length + 1) l

/-- Function `normalizeOperators` from `main.go` lines 141–156.  Note the `"++"`
replacement is a single `ReplaceAll` (no loop), while the `"--"`, `"+-"`,
`"-+"` replacements loop until the pattern is gone. -/
def normalizeOperators (l : Str) : Str :=
  replLoop '-' '+' '-' (replLoop '+' '-' '-' (replLoop '-' '-' '+' (repl2 '+' '+' '+' l)))

/-- The characters the tokenizer's `strings.NewReplacer` surrounds with
spaces. -/
def isSpecial (c : Char) : Bool :=
  c = '(' || c = ')' || c = '+' || c = '-' || c = '*' || c = '/' || c = '^'

/-- The space-insertion pass of `tokenize` (`main.go` lines 127–136). -/
def expand : Str → Str
  | [] => []
  | c :: rest => if isSpecial c then ' ' :: c :: ' ' :: expand rest else c :: expand rest

/-- Whitespace per `unicode.IsSpace`, the characters Go's `strings.Fields`
splits on: ASCII whitespace plus U+0085 and U+00A0.  (The exotic Unicode
space characters of category Zs, which no string in this development
contains, are omitted.) -/
def isSpaceC (c : Char) : Bool :=
  c.toNat = 32 || c.toNat = 9 || c.toNat = 10 || c.toNat = 11 ||
  c.toNat = 12 || c.toNat = 13 || c.toNat = 0x85 || c.toNat = 0xA0

/-- Accumulator-style implementation of Go `strings.Fields`: split on
whitespace runs, producing no empty fields.  `cur` holds the characters of
the current field in reverse order. -/
def fieldsAux (cur : Str) : Str → List Str
  | [] => if cur = [] then [] else [cur.reverse]
  | c :: rest =>
    if isSpaceC c then
      if cur = [] then fieldsAux [] rest else cur.reverse :: fieldsAux [] rest
    else fieldsAux (c :: cur) rest

def fields (l : Str) : List Str := fieldsAux [] l

/-- Function `tokenize` from `main.go` lines 125–138. -/
def tokenize (l : Str) : List Str := fields (expand l)

/-- The operator-arrival `for` loop of the shunting yard (`main.go` lines
97–106): split the stack into the popped prefix and the remainder. -/
def popGE (tok : Str) : List Str → List Str × List Str
  | [] => ([], [])
  | t :: rest =>
    if precedence t > precedence tok ∨
        (precedence t = precedence tok ∧ isRightAssociative tok = false) then
      ((t :: (popGE tok rest).1), (popGE tok rest).2)
    else ([], t :: rest)

/-- The `)`-handling loop of the shunting yard (`main.go` lines 79–91):
pop operators until the matching `(`; `none` when no `(` is found. -/
def popParen : List Str → Option (List Str × List Str)
  | [] => none
  | t :: rest =>
    if t = ['('] then some ([], rest)
    else match popParen rest with
      | none => none
      | some (o, s) => some (t :: o, s)

/-- End-of-input flush of the shunting yard (`main.go` lines 113–120):
error if a parenthesis remains on the stack, otherwise pop everything to
the output. -/
def shuntFlush (out stack : List Str) : Option (List Str) :=
  if stack.any (fun t => t = ['('] || t = [')']) then none else some (out ++ stack)

/-- The token loop of `infixToPostfix` (`main.go` lines 73–111), operating
on the token list with the output and operator stack accumulated
explicitly (stack head = top). -/
def shuntToks : List Str → List Str → List Str → Option (List Str)
  | [], out, stack => shuntFlush out stack
  | tok :: rest, out, stack =>
    if isNumber tok || isValidIdentifier tok then
      shuntToks rest (out ++ [tok]) stack
    else if tok = ['('] then
      shuntToks rest out (tok :: stack)
    else if tok = [')'] then
      match popParen stack with
      | none => none
      | some (o, s) => shuntToks rest (out ++ o) s
    else if tok = ['+'] ∨ tok = ['-'] ∨ tok = ['*'] ∨ tok = ['/'] ∨ tok = ['^'] then
      if contains2 '*' '*' tok || contains2 '/' '/' tok then none
      else shuntToks rest (out ++ (popGE tok stack).1) (tok :: (popGE tok stack).2)
    else none

/-- Function `infixToPostfix` from `main.go` lines 65–122: normalize, tokenize,
then run the shunting yard.  `none` is the `Invalid expression` error. -/
def infixToPostfix (expr : Str) : Option (List Str) :=
  shuntToks (tokenize (normalizeOperators expr)) [] []

/-- Two's-complement wrap of Go 64-bit `int` arithmetic. -/
def wrap64 (x : Int) : Int := (x + 2 ^ 63) % 2 ^ 64 - 2 ^ 63

/-- End-of-loop check of `evaluatePostfix` (`main.go` lines 196–199):
exactly one value must remain on the evaluation stack. -/
def finishEval : List Int → Res
  | [v] => .ok v
  | _ => .err .invalidExpression

/-- The operator `switch` of `evaluatePostfix` (`main.go` lines 176–192):
`b` is the popped top, `a` the next value.  64-bit wrap on `+ - * /`;
`ipow` abstracts `int(math.Pow(float64(a), float64(b)))`; the `default`
case is the `Invalid expression` error. -/
def applyOp (ipow : Int → Int → Int) (tok : Str) (a b : Int) : Res :=
  if tok = ['+'] then .ok (wrap64 (a + b))
  else if tok = ['-'] then .ok (wrap64 (a - b))
  else if tok = ['*'] then .ok (wrap64 (a * b))
  else if tok = ['/'] then
    if b = 0 then .err .divisionByZero else .ok (wrap64 (Int.tdiv a b))
  else if tok = ['^'] then .ok (ipow a b)
  else .err .invalidExpression

/-- The underflow check and double pop of `evaluatePostfix` (`main.go`
lines 169–174): `b` is the top, `a` the next value. -/
def popTwo : List Int → Option (Int × Int × List Int)
  | b :: a :: s => some (b, a, s)
  | _ => none

/-- One iteration of the token loop of `evaluatePostfix` (`main.go` lines
161–195): either the updated evaluation stack, or the error that aborts
the loop (operand push, underflow check, operator application). -/
def stepEval (ipow : Int → Int → Int) (st : Store) (tok : Str)
    (stack : List Int) : GoErr ⊕ List Int :=
  if isNumber tok || isValidIdentifier tok then
    match resolveValue st tok with
    | .ok v => .inr (v :: stack)
    | .err e => .inl e
  else
    match popTwo stack with
    | some (b, a, s) =>
      match applyOp ipow tok a b with
      | .ok res => .inr (res :: s)
      | .err e => .inl e
    | none => .inl .invalidExpression

/-- The token loop of `evaluatePostfix` (`main.go` lines 159–200),
state-passing in the store (which it only reads) and with the evaluation
stack explicit (head = top; Go pops `b` then `a`, so pushing the left
operand first leaves `b :: a :: _`). -/
def evalPostAux (ipow : Int → Int → Int) :
    List Str → List Int → Store → Res × Store
  | [], stack, st => (finishEval stack, st)
  | tok :: rest, stack, st =>
    match stepEval ipow st tok stack with
    | .inl e => (.err e, st)
    | .inr stack2 => evalPostAux ipow rest stack2 st

/-- Function `evaluatePostfix` from `main.go` lines 159–200 (the result component;
`evalPostAux` additionally returns the store to state the frame claim). -/
def evaluatePostfix (ipow : Int → Int → Int) (store : Store) (pf : List Str) : Res :=
  (evalPostAux ipow pf [] store).1

/-- The expression path of the REPL (`main.go` lines 273–283):
`infixToPostfix` then `evaluatePostfix`.  The `Res` value carries the
typed error the failing component returned; the REPL itself prints the
single message "Invalid expression" for every failure on this path. -/
def pipeline (ipow : Int → Int → Int) (store : Store) (line : Str) : Res :=
  match infixToPostfix line with
  | none => .err .invalidExpression
  | some p => evaluatePostfix ipow store p

/-- State-passing form of the whole expression pipeline, for the frame
claim about the variable store. -/
def pipelineS (ipow : Int → Int → Int) (store : Store) (line : Str) : Res × Store :=
  match infixToPostfix line with
  | none => (.err .invalidExpression, store)
  | some p => evalPostAux ipow p [] store

/-- Go `strings.Split` on a single-character separator; `cur` holds the
current piece in reverse order. -/
def splitAux (sep : Char) (cur : Str) : Str → List Str
  | [] => [cur.reverse]
  | c :: rest =>
    if c = sep then cur.reverse :: splitAux sep [] rest
    else splitAux sep (c :: cur) rest

def splitOnChar (sep : Char) (l : Str) : List Str := splitAux sep [] l

/-- Go `strings.TrimSpace`. -/
def trimSpace (l : Str) : Str :=
  ((l.dropWhile isSpaceC).reverse.dropWhile isSpaceC).reverse

/-- The message `handleAssignment` prints (`.success` = no message). -/
inductive AssignMsg where
  | success
  | invalidAssignment
  | invalidIdentifier
  | unknownVariable
deriving DecidableEq, Repr

/-- Go map write `variables[left] = v`. -/
def updateStore (s : Store) (k : Str) (v : Int) : Store :=
  fun k' => if k' = k then some v else s k'

/-- Function `handleAssignment` from `main.go` lines 203–232, state-passing in the
store and returning the printed diagnostic. -/
def handleAssignment (line : Str) (store : Store) : Store × AssignMsg :=
  match splitOnChar '=' line with
  | [l0, r0] =>
    let left := trimSpace l0
    let right := trimSpace r0
    if isValidIdentifier left = false then (store, .invalidIdentifier)
    else if isNumber right then (updateStore store left ((atoi right).getD 0), .success)
    else if isValidIdentifier right then
      match store right with
      | some v => (updateStore store left v, .success)
      | none => (store, .unknownVariable)
    else (store, .invalidAssignment)
  | _ => (store, .invalidAssignment)

/-- The empty variable store (start of a session). -/
def store0 : Store := fun _ => none

/-- Concrete exponentiation function used to instantiate `ipow` in closed
evaluations: exact integer power on non-negative exponents, 0 otherwise
(agreeing with `int(math.Pow a b)` at every operand pair the closed
theorems below evaluate it on). -/
def ipow0 (a b : Int) : Int := if 0 ≤ b then a ^ b.toNat else 0

/-- From the spec's words (§4.1): "every character is a Latin letter".
Reference definition used only to compare the spec's claim with the
source's `isValidIdentifier` (which uses `unicode.IsLetter`). -/
def isLatinLetter (c : Char) : Bool :=
  (65 ≤ c.toNat && c.toNat ≤ 90) || (97 ≤ c.toNat && c.toNat ≤ 122)

/-- A sign character, i.e. a character the normalizer's replacement
patterns are built from. -/
def isSign (c : Char) : Bool := c = '+' || c = '-'

/-- No two adjacent characters are both sign characters: none of the
patterns `++`, `--`, `+-`, `-+` occurs. -/
def signPairFree : Str → Bool
  | a :: b :: rest => !(isSign a && isSign b) && signPairFree (b :: rest)
  | _ => true

/-- The ASCII digit character of `n < 10`. -/
def digitChar (n : Nat) : Char :=
  if n = 0 then '0' else if n = 1 then '1' else if n = 2 then '2'
  else if n = 3 then '3' else if n = 4 then '4' else if n = 5 then '5'
  else if n = 6 then '6' else if n = 7 then '7' else if n = 8 then '8' else '9'

/-- Decimal digits of a natural number, most significant first (fuelled;
`n + 1` steps always suffice since the argument strictly decreases). -/
def natToDigitsF : Nat → Nat → Str
  | 0, _ => []
  | fuel + 1, n =>
    if n < 10 then [digitChar n]
    else natToDigitsF fuel (n / 10) ++ [digitChar (n % 10)]

def natToDigits (n : Nat) : Str := natToDigitsF (n + 1) n

/-- The five binary operators of the calculator's grammar. -/
inductive Op where
  | add
  | sub
  | mul
  | div
  | pow
deriving DecidableEq, Repr

/-- Reference abstract syntax for C1: balanced arithmetic expressions
over non-negative integer literals and the binary operators. -/
inductive Expr where
  | num (n : Int)
  | bin (op : Op) (l : Expr) (r : Expr)
deriving DecidableEq, Repr

def opChar : Op → Char
  | .add => '+'
  | .sub => '-'
  | .mul => '*'
  | .div => '/'
  | .pow => '^'

def opStr (op : Op) : Str := [opChar op]

/-- The spec's precedence table (`^` = 3, `*`/`/` = 2, `+`/`-` = 1). -/
def opPrec : Op → Nat
  | .add => 1
  | .sub => 1
  | .mul => 2
  | .div => 2
  | .pow => 3

/-- Right-associativity per the spec: only `^`. -/
def rightA : Op → Bool
  | .pow => true
  | _ => false

/-- Context precedence for the left child when printing with minimal
parentheses: an equal-precedence left child needs no parentheses exactly
for a left-associative operator. -/
def lctx (op : Op) : Nat := if rightA op then opPrec op + 1 else opPrec op

/-- Context precedence for the right child (mirror image of `lctx`). -/
def rctx (op : Op) : Nat := if rightA op then opPrec op else opPrec op + 1

/-- Print an expression with the minimal parenthesization that preserves
its meaning under standard precedence and associativity: parentheses
exactly around subtrees whose operator binds looser than the context
requires.  Every balanced expression string of C1's statement, written
without redundant parentheses, is `renderP e 1` of its parse tree `e`. -/
def renderP : Expr → Nat → Str
  | .num n, _ => natToDigits n.toNat
  | .bin op l r, p =>
    if opPrec op < p then
      '(' :: ((renderP l (lctx op) ++ opChar op :: renderP r (rctx op)) ++ [')'])
    else renderP l (lctx op) ++ opChar op :: renderP r (rctx op)

def render (e : Expr) : Str := renderP e 1

/-- The token sequence of `renderP e p` (proved equal to
`tokenize (renderP e p)`). -/
def tokensP : Expr → Nat → List Str
  | .num n, _ => [natToDigits n.toNat]
  | .bin op l r, p =>
    if opPrec op < p then
      ['('] :: ((tokensP l (lctx op) ++ opStr op :: tokensP r (rctx op)) ++ [[')']])
    else tokensP l (lctx op) ++ opStr op :: tokensP r (rctx op)

/-- Reverse Polish form of an expression (postorder traversal). -/
def rpn : Expr → List Str
  | .num n => [natToDigits n.toNat]
  | .bin op l r => rpn l ++ rpn r ++ [opStr op]

/-- The chain of operators of `e` still pending on the shunting-yard
stack after the converter has consumed the tokens of `renderP e p`
(head = top of stack): the operators along the right spine down to the
first parenthesized subtree. -/
def chainB : Expr → Nat → List Str
  | .num _, _ => []
  | .bin op l r, p =>
    if opPrec op < p then [] else chainB r (rctx op) ++ [opStr op]

/-- The part of `rpn e` that the converter has already emitted to the
output after consuming the tokens of `renderP e p`
(`prefA e p ++ chainB e p = rpn e`). -/
def prefA : Expr → Nat → List Str
  | .num n, _ => [natToDigits n.toNat]
  | .bin op l r, p =>
    if opPrec op < p then rpn (.bin op l r) else rpn l ++ prefA r (rctx op)

/-- Direct mathematical denotation of an operator, per the spec: `/` is
integer division truncating toward zero (undefined on divisor 0), `^` is
integer exponentiation (undefined on negative exponents). -/
def opDenoteM : Op → Int → Int → Option Int
  | .add, a, b => some (a + b)
  | .sub, a, b => some (a - b)
  | .mul, a, b => some (a * b)
  | .div, a, b => if b = 0 then none else some (Int.tdiv a b)
  | .pow, a, b => if b < 0 then none else some (a ^ b.toNat)

/-- Reference semantics of C1's claim: unbounded direct evaluation of the
expression (literals are non-negative). -/
def evalMath : Expr → Option Int
  | .num n => if 0 ≤ n then some n else none
  | .bin op l r =>
    match evalMath l, evalMath r with
    | some a, some b => opDenoteM op a b
    | _, _ => none

/-- Direct evaluation restricted to values representable in a 64-bit
`int`: every literal in `[0, 2^63)` and every intermediate result in
`[-2^63, 2^63)`.  Inside this envelope Go's wrap-around arithmetic is
exact arithmetic. -/
def evalFit : Expr → Option Int
  | .num n => if 0 ≤ n ∧ n < 2 ^ 63 then some n else none
  | .bin op l r =>
    match evalFit l, evalFit r with
    | some a, some b =>
      (opDenoteM op a b).bind fun v =>
        if -(2 ^ 63) ≤ v ∧ v < 2 ^ 63 then some v else none
    | _, _ => none

/-- Predicate: `ipow` (the abstraction of `int(math.Pow ...)`) is exact at every
`^`-application occurring in `e`. -/
def PowOK (ipow : Int → Int → Int) : Expr → Prop
  | .num _ => True
  | .bin op l r =>
    PowOK ipow l ∧ PowOK ipow r ∧
      (op = .pow → ∀ a b : Int,
        evalFit l = some a → evalFit r = some b → ipow a b = a ^ b.toNat)

/-- Every literal of the expression lies in `[0, 2^63)`, so its decimal
rendering is accepted by `strconv.Atoi`. -/
def LitsOK : Expr → Prop
  | .num n => 0 ≤ n ∧ n < 2 ^ 63
  | .bin _ l r => LitsOK l ∧ LitsOK r

/-- The shunting-yard stack is safe for processing an expression rendered
in context `p`: its top is `(`, or an operator no arriving operator of
precedence ≥ `p` would pop (by left-associative tie-breaking this means
precedence < `p`, or equal precedence with a right-associative top). -/
def headSafe (p : Nat) : List Str → Prop
  | [] => True
  | t :: _ =>
    t = ['('] ∨ precedence t < p ∨ (precedence t = p ∧ isRightAssociative t = true)

/-- The operator-arrival loop stops immediately at this stack: the top
(if any) fails the pop condition for arriving token `tok`. -/
def noPopTop (tok : Str) : List Str → Prop
  | [] => True
  | t :: _ =>
    ¬(precedence t > precedence tok ∨
      (precedence t = precedence tok ∧ isRightAssociative tok = false))

/-- Concrete expression used as witness input for C1's amended theorem:
`2^3+4*5` (= 28). -/
def exprWit : Expr := .bin .add (.bin .pow (.num 2) (.num 3)) (.bin .mul (.num 4) (.num 5))

/-- Concrete expression used as C1's counterexample input:
`9223372036854775807+1`, whose direct value `2^63` exceeds the 64-bit
`int` range. -/
def exprOfl : Expr := .bin .add (.num (2 ^ 63 - 1)) (.num 1)

/-- C2 (code_bug evidence): the pipeline rejects every leading-unary-minus
literal instead of applying the sign-parity law.  `"-5"` and `"--5"` both
evaluate to the `Invalid expression` failure (the lone sign token causes a
stack underflow in the postfix evaluator), and normalization turns a run
of four minus signs into `"++"`, not a single `"+"`. -/
theorem c2_unary_minus_fails (ipow : Int → Int → Int) (store : Store) :
    pipeline ipow store "-5".toList = .err .invalidExpression ∧
    pipeline ipow store "--5".toList = .err .invalidExpression ∧
    pipeline ipow store "---5".toList = .err .invalidExpression ∧
    normalizeOperators "----".toList = "++".toList ∧
    normalizeOperators "--5".toList = "+5".toList := by
  refine ⟨rfl, rfl, rfl, rfl, rfl⟩

/-- C3 (counterexample): `normalizeOperators` is not idempotent.  On
`"+++"` the single (un-looped) `"++"→"+"` replacement leaves `"++"`, which
a second application collapses to `"+"`. -/
theorem c3_counterexample :
    normalizeOperators (normalizeOperators "+++".toList) ≠
      normalizeOperators "+++".toList := by
  decide

/-- C4 (code_bug evidence): `"7 / 2"` evaluates to `3` and division does
truncate toward zero (`"(0 - 7) / 2"` gives `-3`), but the input
`"-7 / 2"` named by the claim fails with `Invalid expression` because the
leading unary minus is tokenized as a lone operator. -/
theorem c4_division_truncation (ipow : Int → Int → Int) (store : Store) :
    pipeline ipow store "7 / 2".toList = .ok 3 ∧
    pipeline ipow store "-7 / 2".toList = .err .invalidExpression ∧
    pipeline ipow store "(0 - 7) / 2".toList = .ok (-3) := by
  refine ⟨rfl, rfl, rfl⟩

/-- C5: exponentiation is right-associative.  The converter turns
`"2 ^ 3 ^ 2"` into the postfix `2 3 2 ^ ^` (an incoming `^` does not pop
an equal-precedence `^`), and evaluation yields `ipow 2 (ipow 3 2)`,
which is `512` since `int(math.Pow)` is exact at `(3,2)` and `(2,9)`
(both results are exactly representable in float64). -/
theorem c5_pow_right_assoc (ipow : Int → Int → Int) (store : Store)
    (h1 : ipow 3 2 = 9) (h2 : ipow 2 9 = 512) :
    infixToPostfix "2 ^ 3 ^ 2".toList = some [['2'], ['3'], ['2'], ['^'], ['^']] ∧
    pipeline ipow store "2 ^ 3 ^ 2".toList = .ok 512 := by
  refine ⟨rfl, ?_⟩
  have h : pipeline ipow store "2 ^ 3 ^ 2".toList = .ok (ipow 2 (ipow 3 2)) := rfl
  rw [h, h1, h2]

/-- Witness for `c5_pow_right_assoc` at the concrete exponentiation
function `ipow0`. -/
theorem c5_pow_right_assoc_witness :
    ipow0 3 2 = 9 ∧ pipeline ipow0 store0 "2 ^ 3 ^ 2".toList = .ok 512 :=
  ⟨by decide, (c5_pow_right_assoc ipow0 store0 (by decide) (by decide)).2⟩

/-- C6 (counterexample): the infix-to-postfix converter does NOT reject
`"3 ** 2"`.  Tokenization splits every operator into a single-character
token, so the converter's `strings.Contains(token, "**")` check never
fires and the conversion succeeds, producing `3 * 2 *`. -/
theorem c6_counterexample :
    infixToPostfix "3 ** 2".toList = some [['3'], ['*'], ['2'], ['*']] := by
  rfl

/-- C6 (amended): `"3 ** 2"` is rejected by the pipeline, but at the
postfix-evaluation stage (stack underflow → `Invalid expression`), not by
the converter: the converter succeeds because its repeated-operator check
inspects single-character tokens. -/
theorem c6_rejected_in_evaluator (ipow : Int → Int → Int) (store : Store) :
    infixToPostfix "3 ** 2".toList = some [['3'], ['*'], ['2'], ['*']] ∧
    evaluatePostfix ipow store [['3'], ['*'], ['2'], ['*']] = .err .invalidExpression ∧
    pipeline ipow store "3 ** 2".toList = .err .invalidExpression := by
  refine ⟨rfl, rfl, rfl⟩

/-- C7 (counterexample): `isValidIdentifier` accepts `"α"`, whose only
character is not a Latin letter — the source uses `unicode.IsLetter`,
not a Latin-only check. -/
theorem c7_counterexample :
    isValidIdentifier ['α'] = true ∧ isLatinLetter 'α' = false := by
  decide

/-- C8: with an empty store, evaluating `"x + 1"` fails with the
unknown-variable error; after handling the assignment `"x = 5"` it
returns `6`. -/
theorem c8_unknown_then_bound (ipow : Int → Int → Int) :
    pipeline ipow store0 "x + 1".toList = .err .unknownVariable ∧
    (handleAssignment "x = 5".toList store0).2 = .success ∧
    pipeline ipow (handleAssignment "x = 5".toList store0).1 "x + 1".toList = .ok 6 := by
  refine ⟨rfl, rfl, rfl⟩

lemma repl2_eq_self (x y z : Char) :
    ∀ l : Str, contains2 x y l = false → repl2 x y z l = l := by
  intro l
  induction l with
  | nil => intro _; rfl
  | cons a l' ih =>
    cases l' with
    | nil => intro _; rfl
    | cons b rest =>
      intro h
      simp only [contains2, Bool.or_eq_false_iff, decide_eq_false_iff_not] at h
      simp only [repl2, if_neg h.1]
      exact congrArg (a :: ·) (ih h.2)

lemma contains2_of_chain (x y : Char) (hx : isSign x = true) (hy : isSign y = true) :
    ∀ l : Str, signPairFree l = true → contains2 x y l = false := by
  intro l
  induction l with
  | nil => intro _; rfl
  | cons a l' ih =>
    cases l' with
    | nil => intro _; rfl
    | cons b rest =>
      intro h
      simp only [signPairFree, Bool.and_eq_true, Bool.not_eq_true',
        Bool.and_eq_false_iff] at h
      simp only [contains2, Bool.or_eq_false_iff, decide_eq_false_iff_not]
      refine ⟨?_, ih h.2⟩
      rintro ⟨rfl, rfl⟩
      rcases h.1 with h1 | h1
      · rw [hx] at h1; cases h1
      · rw [hy] at h1; cases h1

lemma replLoop_eq_self (x y z : Char) (l : Str) (h : contains2 x y l = false) :
    replLoop x y z l = l := by
  rw [replLoop, replLoopF, if_neg]
  simp [h]

lemma normalizeOperators_eq_self (l : Str) (h : signPairFree l = true) :
    normalizeOperators l = l := by
  have h1 : repl2 '+' '+' '+' l = l :=
    repl2_eq_self _ _ _ l (contains2_of_chain _ _ (by decide) (by decide) l h)
  rw [normalizeOperators, h1,
    replLoop_eq_self _ _ _ l (contains2_of_chain _ _ (by decide) (by decide) l h),
    replLoop_eq_self _ _ _ l (contains2_of_chain _ _ (by decide) (by decide) l h),
    replLoop_eq_self _ _ _ l (contains2_of_chain _ _ (by decide) (by decide) l h)]

/-- C3 (amended): on strings with no adjacent pair of sign characters —
in particular on every well-formed binary-operator expression —
`normalizeOperators` is the identity, hence idempotent.  (In general
idempotence fails: see `c3_counterexample`.) -/
theorem c3_idempotent_on_sign_free (l : Str) (h : signPairFree l = true) :
    normalizeOperators (normalizeOperators l) = normalizeOperators l := by
  rw [normalizeOperators_eq_self l h, normalizeOperators_eq_self l h]

/-- Witness for `c3_idempotent_on_sign_free` on the concrete input
`"1+2*3"`. -/
theorem c3_idempotent_on_sign_free_witness :
    signPairFree "1+2*3".toList = true ∧
      normalizeOperators (normalizeOperators "1+2*3".toList) =
        normalizeOperators "1+2*3".toList :=
  ⟨by decide, c3_idempotent_on_sign_free "1+2*3".toList (by decide)⟩

/-- C7 (amended): `isValidIdentifier` returns `true` exactly for the
non-empty tokens all of whose characters are Unicode letters
(`unicode.IsLetter`); in particular digit-, underscore- and
punctuation-containing tokens are rejected, while non-Latin letters are
accepted. -/
theorem c7_characterization :
    (∀ s : Str, isValidIdentifier s = true ↔
        (∀ c ∈ s, goIsLetter c = true) ∧ s ≠ []) ∧
    isValidIdentifier "x1".toList = false ∧
    isValidIdentifier "_".toList = false ∧
    isValidIdentifier "foo!".toList = false ∧
    isValidIdentifier "Foo".toList = true ∧
    isValidIdentifier ['α'] = true := by
  refine ⟨?_, by decide, by decide, by decide, by decide, by decide⟩
  intro s
  simp [isValidIdentifier, List.all_eq_true, List.length_pos]

lemma splitAux_no_sep (sep : Char) :
    ∀ (l : Str) (cur : Str), sep ∉ l → splitAux sep cur l = [cur.reverse ++ l] := by
  intro l
  induction l with
  | nil => intro cur _; simp [splitAux]
  | cons c rest ih =>
    intro cur h
    have hc : c ≠ sep := fun he => h (he ▸ List.mem_cons_self c rest)
    have hr : sep ∉ rest := fun hm => h (List.mem_cons_of_mem c hm)
    simp only [splitAux, if_neg hc]
    rw [ih (c :: cur) hr]
    simp

lemma splitAux_sep (sep : Char) :
    ∀ (left : Str) (cur : Str) (right : Str), sep ∉ left →
      splitAux sep cur (left ++ sep :: right) =
        (cur.reverse ++ left) :: splitAux sep [] right := by
  intro left
  induction left with
  | nil => intro cur right _; simp [splitAux]
  | cons c rest ih =>
    intro cur right h
    have hc : c ≠ sep := fun he => h (he ▸ List.mem_cons_self c rest)
    have hr : sep ∉ rest := fun hm => h (List.mem_cons_of_mem c hm)
    simp only [List.cons_append, splitAux, if_neg hc, List.append_eq]
    rw [ih (c :: cur) right hr]
    simp

lemma splitOnChar_eq_pair (sep : Char) (left right : Str)
    (h1 : sep ∉ left) (h2 : sep ∉ right) :
    splitOnChar sep (left ++ sep :: right) = [left, right] := by
  rw [splitOnChar, splitAux_sep sep left [] right h1, splitAux_no_sep sep right [] h2]
  simp

lemma letter_not_digit_or_sign (c : Char) (h : goIsLetter c = true) :
    isDigitC c = false ∧ c ≠ '+' ∧ c ≠ '-' := by
  simp only [goIsLetter, Bool.or_eq_true, Bool.and_eq_true, decide_eq_true_eq] at h
  refine ⟨?_, ?_, ?_⟩
  · simp only [isDigitC, Bool.and_eq_false_iff, decide_eq_false_iff_not]
    omega
  · intro he; subst he; revert h; decide
  · intro he; subst he; revert h; decide

lemma ident_not_number (s : Str) (h : isValidIdentifier s = true) :
    isNumber s = false := by
  rcases s with _ | ⟨c, rest⟩
  · cases h
  · simp only [isValidIdentifier, Bool.and_eq_true, List.all_eq_true] at h
    have hc : goIsLetter c = true := h.1 c (List.mem_cons_self c rest)
    obtain ⟨hd, hp, hm⟩ := letter_not_digit_or_sign c hc
    simp only [isNumber, atoi, if_neg hm, if_neg hp]
    have : digitsToNat? (c :: rest) = none := by
      simp only [digitsToNat?, ite_eq_right_iff]
      intro hcon
      exfalso
      have := hcon.2
      simp only [List.all_eq_true] at this
      have := this c (List.mem_cons_self c rest)
      rw [hd] at this; cases this
    rw [this]
    rfl

/-- C9: a failed assignment whose right-hand side is an unbound
identifier reports the unknown-variable failure and leaves the store —
including the left-hand entry — exactly as it was. -/
theorem c9_failed_assignment_preserves_store (left right : Str) (store : Store)
    (hL : '=' ∉ left) (hR : '=' ∉ right)
    (hl : isValidIdentifier (trimSpace left) = true)
    (hr : isValidIdentifier (trimSpace right) = true)
    (hb : store (trimSpace right) = none) :
    handleAssignment (left ++ '=' :: right) store = (store, .unknownVariable) := by
  rw [handleAssignment, splitOnChar_eq_pair '=' left right hL hR]
  simp only [hl, ident_not_number _ hr, hr, hb, Bool.true_eq_false, if_false,
    Bool.false_eq_true, if_true]

/-- Witness for `c9_failed_assignment_preserves_store`: the spec's own
example `c = d` with `d` unbound in the empty store. -/
theorem c9_failed_assignment_preserves_store_witness :
    isValidIdentifier (trimSpace [' ', 'd']) = true ∧
      handleAssignment (['c', ' '] ++ '=' :: [' ', 'd']) store0 =
        (store0, .unknownVariable) :=
  ⟨by decide,
    c9_failed_assignment_preserves_store ['c', ' '] [' ', 'd'] store0
      (by decide) (by decide) (by decide) (by decide) rfl⟩

lemma evalPostAux_preserves_store (ipow : Int → Int → Int) :
    ∀ (toks : List Str) (stack : List Int) (store : Store),
      (evalPostAux ipow toks stack store).2 = store := by
  intro toks
  induction toks with
  | nil => intro stack store; rfl
  | cons tok rest ih =>
    intro stack store
    rw [evalPostAux]
    rcases h : stepEval ipow store tok stack with e | stack2
    · rfl
    · exact ih stack2 store

/-- C10: the expression pipeline only reads the variable store.  For every
input line, and for every postfix token list, evaluation stack and store,
the state-passing pipeline returns the store it was given, whether it
succeeds or fails; only `handleAssignment` ever produces an updated
store. -/
theorem c10_pipeline_preserves_store (ipow : Int → Int → Int) (store : Store) :
    (∀ line : Str, (pipelineS ipow store line).2 = store) ∧
    (∀ (toks : List Str) (stack : List Int),
      (evalPostAux ipow toks stack store).2 = store) := by
  constructor
  · intro line
    rw [pipelineS]
    rcases infixToPostfix line with _ | p
    · rfl
    · exact evalPostAux_preserves_store ipow p [] store
  · intro toks stack
    exact evalPostAux_preserves_store ipow toks stack store

lemma digitChar_toNat (n : Nat) (h : n < 10) : (digitChar n).toNat = 48 + n := by
  interval_cases n <;> rfl

lemma digitChar_isDigit (n : Nat) (h : n < 10) : isDigitC (digitChar n) = true := by
  interval_cases n <;> rfl

lemma digitsVal_concat (l : Str) (c : Char) :
    digitsVal (l ++ [c]) = digitsVal l * 10 + (c.toNat - 48) := by
  simp [digitsVal, List.foldl_append]

lemma natToDigitsF_spec :
    ∀ (fuel n : Nat), n < fuel →
      natToDigitsF fuel n ≠ [] ∧
      (natToDigitsF fuel n).all isDigitC = true ∧
      digitsVal (natToDigitsF fuel n) = n := by
  intro fuel
  induction fuel with
  | zero => intro n h; omega
  | succ f ih =>
    intro n h
    by_cases h10 : n < 10
    · rw [natToDigitsF, if_pos h10]
      refine ⟨by simp, ?_, ?_⟩
      · simp [digitChar_isDigit n h10]
      · simp [digitsVal, digitChar_toNat n h10]
    · rw [natToDigitsF, if_neg h10]
      have hd : n / 10 < f := by
        have := Nat.div_lt_self (by omega : 0 < n) (by omega : 1 < 10)
        omega
      obtain ⟨h1, h2, h3⟩ := ih (n / 10) hd
      refine ⟨by simp, ?_, ?_⟩
      · simp only [List.all_append, Bool.and_eq_true, h2, true_and, List.all_cons,
          List.all_nil, Bool.and_true]
        exact digitChar_isDigit (n % 10) (Nat.mod_lt n (by omega))
      · rw [digitsVal_concat, h3, digitChar_toNat (n % 10) (Nat.mod_lt n (by omega))]
        omega

lemma natToDigits_spec (n : Nat) :
    natToDigits n ≠ [] ∧ (natToDigits n).all isDigitC = true ∧
      digitsVal (natToDigits n) = n :=
  natToDigitsF_spec (n + 1) n (Nat.lt_succ_self n)

lemma digit_not_sign (c : Char) (h : isDigitC c = true) :
    c ≠ '+' ∧ c ≠ '-' := by
  constructor <;> (intro he; subst he; cases h)

lemma digitsToNat?_natToDigits (n : Nat) :
    digitsToNat? (natToDigits n) = some n := by
  obtain ⟨h1, h2, h3⟩ := natToDigits_spec n
  rw [digitsToNat?, if_pos ⟨h1, h2⟩, h3]

lemma atoi_natToDigits (n : Nat) (h : n ≤ 2 ^ 63 - 1) :
    atoi (natToDigits n) = some (n : Int) := by
  obtain ⟨h1, h2, _⟩ := natToDigits_spec n
  rcases hl : natToDigits n with _ | ⟨c, rest⟩
  · exact absurd hl h1
  · have hc : isDigitC c = true := by
      have := List.all_eq_true.mp h2 c (by rw [hl]; exact List.mem_cons_self c rest)
      exact this
    obtain ⟨hp, hm⟩ := digit_not_sign c hc
    rw [atoi, if_neg hm, if_neg hp, ← hl, digitsToNat?_natToDigits, Option.some_bind,
      if_pos h]

lemma isNumber_natToDigits (n : Nat) (h : n ≤ 2 ^ 63 - 1) :
    isNumber (natToDigits n) = true := by
  rw [isNumber, atoi_natToDigits n h]
  rfl

lemma mem_of_head?_eq {α : Type} {l : List α} {a : α} (h : l.head? = some a) :
    a ∈ l := by
  cases l with
  | nil => cases h
  | cons x t =>
    injection h with h
    exact h ▸ List.mem_cons_self x t

lemma mem_of_getLast?_eq {α : Type} {l : List α} {a : α} (h : l.getLast? = some a) :
    a ∈ l := by
  obtain ⟨hne, rfl⟩ := List.mem_getLast?_eq_getLast (by rw [h]; rfl)
  exact List.getLast_mem hne

lemma digit_nonsign (c : Char) (h : isDigitC c = true) : isSign c = false := by
  obtain ⟨h1, h2⟩ := digit_not_sign c h
  simp [isSign, h1, h2]

lemma digit_not_space (c : Char) (h : isDigitC c = true) : isSpaceC c = false := by
  simp only [isDigitC, Bool.and_eq_true, decide_eq_true_eq] at h
  simp only [isSpaceC, Bool.or_eq_false_iff, decide_eq_false_iff_not]
  omega

lemma digit_not_special (c : Char) (h : isDigitC c = true) : isSpecial c = false := by
  simp only [isSpecial, Bool.or_eq_false_iff, decide_eq_false_iff_not]
  repeat' constructor
  all_goals (intro he; subst he; cases h)

lemma opChar_special (op : Op) : isSpecial (opChar op) = true := by
  cases op <;> decide

lemma opChar_not_space (op : Op) : isSpaceC (opChar op) = false := by
  cases op <;> decide

lemma precedence_opStr (op : Op) : precedence (opStr op) = opPrec op := by
  cases op <;> decide

lemma isRightAssociative_opStr (op : Op) : isRightAssociative (opStr op) = rightA op := by
  cases op <;> decide

lemma opPrec_pos (op : Op) : 1 ≤ opPrec op := by cases op <;> decide

lemma opPrec_le_three (op : Op) : opPrec op ≤ 3 := by cases op <;> decide

lemma opStr_ne_lparen (op : Op) : opStr op ≠ ['('] := by cases op <;> decide

lemma opStr_ne_rparen (op : Op) : opStr op ≠ [')'] := by cases op <;> decide

lemma signPairFree_of_all_nonsign :
    ∀ l : Str, (∀ c ∈ l, isSign c = false) → signPairFree l = true := by
  intro l
  induction l with
  | nil => intro _; rfl
  | cons a t ih =>
    intro h
    cases t with
    | nil => rfl
    | cons b r =>
      have ha : isSign a = false := h a (List.mem_cons_self a _)
      have ht : ∀ c ∈ b :: r, isSign c = false := fun c hc => h c (List.mem_cons_of_mem a hc)
      show (!(isSign a && isSign b) && signPairFree (b :: r)) = true
      rw [ha, ih ht]
      rfl

lemma signPairFree_cons (c : Char) (L : Str) (hL : signPairFree L = true)
    (h : ∀ b, L.head? = some b → isSign c = false ∨ isSign b = false) :
    signPairFree (c :: L) = true := by
  cases L with
  | nil => rfl
  | cons b L2 =>
    show (!(isSign c && isSign b) && signPairFree (b :: L2)) = true
    rw [hL]
    rcases h b rfl with hcb | hcb <;> simp [hcb]

lemma signPairFree_append :
    ∀ A B : Str, signPairFree A = true → signPairFree B = true →
      (∀ a b, A.getLast? = some a → B.head? = some b →
        isSign a = false ∨ isSign b = false) →
      signPairFree (A ++ B) = true := by
  intro A
  induction A with
  | nil => intro B _ hB _; simpa using hB
  | cons a T ih =>
    intro B hA hB hj
    cases T with
    | nil =>
      refine signPairFree_cons a B hB ?_
      intro b hb
      exact hj a b rfl hb
    | cons a2 T2 =>
      have hA2 : signPairFree (a2 :: T2) = true := by
        have : (!(isSign a && isSign a2) && signPairFree (a2 :: T2)) = true := hA
        exact (Bool.and_eq_true _ _).mp this |>.2
      have hstep : (!(isSign a && isSign a2)) = true := by
        have : (!(isSign a && isSign a2) && signPairFree (a2 :: T2)) = true := hA
        exact (Bool.and_eq_true _ _).mp this |>.1
      have hj2 : ∀ x b, (a2 :: T2).getLast? = some x → B.head? = some b →
          isSign x = false ∨ isSign b = false := by
        intro x b hx hb
        exact hj x b (by rw [← hx, List.getLast?_cons_cons]) hb
      show signPairFree (a :: (a2 :: T2) ++ B) = true
      have hrec := ih B hA2 hB hj2
      show (!(isSign a && isSign a2) && signPairFree ((a2 :: T2) ++ B)) = true
      rw [hrec, hstep]
      rfl

lemma renderP_ne_nil : ∀ (e : Expr) (p : Nat), renderP e p ≠ [] := by
  intro e
  induction e with
  | num n => intro p; exact (natToDigits_spec n.toNat).1
  | bin op l r ihl ihr =>
    intro p
    rw [renderP]
    split
    · simp
    · simp

lemma all_digits_renderP_num (n : Int) (p : Nat) :
    ∀ c ∈ renderP (.num n) p, isDigitC c = true := by
  intro c hc
  have h2 := (natToDigits_spec n.toNat).2.1
  exact List.all_eq_true.mp h2 c hc

lemma renderP_head_nonsign :
    ∀ (e : Expr) (p : Nat) (b : Char), (renderP e p).head? = some b →
      isSign b = false := by
  intro e
  induction e with
  | num n =>
    intro p b hb
    exact digit_nonsign b (all_digits_renderP_num n p b (mem_of_head?_eq hb))
  | bin op l r ihl ihr =>
    intro p b hb
    rw [renderP] at hb
    split at hb
    · injection hb with hb
      subst hb
      rfl
    · rw [List.head?_append_of_ne_nil _ (renderP_ne_nil l (lctx op))] at hb
      exact ihl (lctx op) b hb

lemma renderP_last_nonsign :
    ∀ (e : Expr) (p : Nat) (a : Char), (renderP e p).getLast? = some a →
      isSign a = false := by
  intro e
  induction e with
  | num n =>
    intro p a ha
    exact digit_nonsign a (all_digits_renderP_num n p a (mem_of_getLast?_eq ha))
  | bin op l r ihl ihr =>
    intro p a ha
    rw [renderP] at ha
    split at ha
    · rw [show ('(' :: ((renderP l (lctx op) ++ opChar op :: renderP r (rctx op)) ++ [')']))
          = ('(' :: (renderP l (lctx op) ++ opChar op :: renderP r (rctx op))) ++ [')']
          from rfl, List.getLast?_concat] at ha
      injection ha with ha
      subst ha
      rfl
    · rw [List.getLast?_append_cons] at ha
      rw [show (opChar op :: renderP r (rctx op))
            = [opChar op] ++ renderP r (rctx op) from rfl,
        List.getLast?_append_of_ne_nil _ (renderP_ne_nil r (rctx op))] at ha
      exact ihr (rctx op) a ha

lemma signPairFree_renderP : ∀ (e : Expr) (p : Nat), signPairFree (renderP e p) = true := by
  intro e
  induction e with
  | num n =>
    intro p
    exact signPairFree_of_all_nonsign _
      (fun c hc => digit_nonsign c (all_digits_renderP_num n p c hc))
  | bin op l r ihl ihr =>
    intro p
    have hbody : signPairFree
        (renderP l (lctx op) ++ opChar op :: renderP r (rctx op)) = true := by
      refine signPairFree_append _ _ (ihl (lctx op)) ?_ ?_
      · refine signPairFree_cons _ _ (ihr (rctx op)) ?_
        intro b hb
        exact Or.inr (renderP_head_nonsign r (rctx op) b hb)
      · intro a b ha hb
        exact Or.inl (renderP_last_nonsign l (lctx op) a ha)
    rw [renderP]
    split
    · refine signPairFree_cons _ _ ?_ ?_
      · refine signPairFree_append _ _ hbody (by rfl) ?_
        intro a b _ hb
        injection hb with hb
        subst hb
        exact Or.inr rfl
      · intro b _
        exact Or.inl rfl
    · exact hbody

lemma normalize_renderP (e : Expr) (p : Nat) :
    normalizeOperators (renderP e p) = renderP e p :=
  normalizeOperators_eq_self _ (signPairFree_renderP e p)

lemma expand_append : ∀ a b : Str, expand (a ++ b) = expand a ++ expand b := by
  intro a b
  induction a with
  | nil => rfl
  | cons c rest ih =>
    show expand (c :: (rest ++ b)) = expand (c :: rest) ++ expand b
    rw [expand, expand]
    split
    · simp [ih]
    · simp [ih]

lemma expand_of_no_special (l : Str) (h : ∀ c ∈ l, isSpecial c = false) :
    expand l = l := by
  induction l with
  | nil => rfl
  | cons c rest ih =>
    rw [expand, if_neg]
    · rw [ih (fun x hx => h x (List.mem_cons_of_mem c hx))]
    · rw [h c (List.mem_cons_self c rest)]
      simp

lemma expand_cons_special (c : Char) (l : Str) (h : isSpecial c = true) :
    expand (c :: l) = ' ' :: c :: ' ' :: expand l := by
  rw [expand, if_pos h]

lemma fieldsAux_append_space (B : Str) :
    ∀ (a cur : Str), fieldsAux cur (a ++ ' ' :: B) = fieldsAux cur a ++ fieldsAux [] B := by
  intro a
  induction a with
  | nil =>
    intro cur
    show fieldsAux cur (' ' :: B) = fieldsAux cur [] ++ fieldsAux [] B
    conv_lhs => rw [fieldsAux]
    conv_rhs => rw [fieldsAux]
    rw [if_pos (by decide : isSpaceC ' ' = true)]
    by_cases hc : cur = []
    · rw [if_pos hc, if_pos hc]
      rfl
    · rw [if_neg hc, if_neg hc]
      rfl
  | cons c rest ih =>
    intro cur
    show fieldsAux cur (c :: (rest ++ ' ' :: B)) = fieldsAux cur (c :: rest) ++ fieldsAux [] B
    rw [fieldsAux]
    by_cases hs : isSpaceC c = true
    · rw [if_pos hs]
      by_cases hc : cur = []
      · rw [if_pos hc]
        conv_rhs => rw [fieldsAux, if_pos hs, if_pos hc]
        exact ih []
      · rw [if_neg hc]
        conv_rhs => rw [fieldsAux, if_pos hs, if_neg hc]
        rw [ih []]
        rfl
    · rw [if_neg hs]
      conv_rhs => rw [fieldsAux, if_neg hs]
      exact ih (c :: cur)

lemma fieldsAux_word :
    ∀ (w cur : Str), w ≠ [] → (∀ c ∈ w, isSpaceC c = false) →
      fieldsAux cur w = [cur.reverse ++ w] := by
  intro w
  induction w with
  | nil => intro cur h; exact absurd rfl h
  | cons c rest ih =>
    intro cur _ hw
    have hc : isSpaceC c = false := hw c (List.mem_cons_self c rest)
    rw [fieldsAux, if_neg (by rw [hc]; simp)]
    cases rest with
    | nil =>
      show fieldsAux (c :: cur) [] = [cur.reverse ++ [c]]
      rw [fieldsAux, if_neg (by simp)]
      simp
    | cons d rest2 =>
      rw [ih (c :: cur) (by simp) (fun x hx => hw x (List.mem_cons_of_mem c hx))]
      simp

lemma fields_word (w : Str) (h1 : w ≠ []) (h2 : ∀ c ∈ w, isSpaceC c = false) :
    fieldsAux ([] : Str) w = [w] := by
  rw [fieldsAux_word w [] h1 h2]
  rfl

lemma fieldsAux_cons_char_space (c : Char) (X : Str) (h : isSpaceC c = false) :
    fieldsAux [] (c :: ' ' :: X) = [c] :: fieldsAux [] X := by
  rw [fieldsAux, if_neg (by rw [h]; simp), fieldsAux,
    if_pos (by decide : isSpaceC ' ' = true), if_neg (by simp)]
  rfl

lemma fieldsAux_space_skip (Z : Str) : fieldsAux [] (' ' :: Z) = fieldsAux [] Z := rfl

lemma tokenize_renderP : ∀ (e : Expr) (p : Nat), tokenize (renderP e p) = tokensP e p := by
  intro e
  induction e with
  | num n =>
    intro p
    have hdig : ∀ c ∈ natToDigits n.toNat, isDigitC c = true :=
      fun c hc => List.all_eq_true.mp (natToDigits_spec n.toNat).2.1 c hc
    show tokenize (natToDigits n.toNat) = [natToDigits n.toNat]
    rw [tokenize, fields,
      expand_of_no_special _ (fun c hc => digit_not_special c (hdig c hc)),
      fields_word _ (natToDigits_spec n.toNat).1
        (fun c hc => digit_not_space c (hdig c hc))]
  | bin op l r ihl ihr =>
    intro p
    have hbody : tokenize (renderP l (lctx op) ++ opChar op :: renderP r (rctx op)) =
        tokensP l (lctx op) ++ opStr op :: tokensP r (rctx op) := by
      rw [tokenize, fields, expand_append,
        expand_cons_special _ _ (opChar_special op),
        fieldsAux_append_space (opChar op :: ' ' :: expand (renderP r (rctx op)))
          (expand (renderP l (lctx op))) [],
        fieldsAux_cons_char_space _ _ (opChar_not_space op)]
      rw [show fieldsAux ([] : Str) (expand (renderP l (lctx op)))
            = tokenize (renderP l (lctx op)) from rfl,
        show fieldsAux ([] : Str) (expand (renderP r (rctx op)))
            = tokenize (renderP r (rctx op)) from rfl,
        ihl (lctx op), ihr (rctx op)]
      rfl
    rw [renderP, tokensP]
    by_cases hp : opPrec op < p
    · rw [if_pos hp, if_pos hp]
      have hexp : expand ('(' ::
            ((renderP l (lctx op) ++ opChar op :: renderP r (rctx op)) ++ [')']))
          = ' ' :: '(' :: ' ' ::
            (expand (renderP l (lctx op) ++ opChar op :: renderP r (rctx op)) ++
              (' ' :: [')', ' '])) := by
        rw [expand_cons_special _ _ (by decide : isSpecial '(' = true), expand_append]
        rfl
      rw [tokenize, fields, hexp, fieldsAux_space_skip,
        fieldsAux_cons_char_space _ _ (by decide : isSpaceC '(' = false),
        fieldsAux_append_space [')', ' ']
          (expand (renderP l (lctx op) ++ opChar op :: renderP r (rctx op))) [],
        show fieldsAux ([] : Str) ([')', ' '] : Str) = [[')']] from rfl,
        show fieldsAux ([] : Str)
            (expand (renderP l (lctx op) ++ opChar op :: renderP r (rctx op)))
          = tokenize (renderP l (lctx op) ++ opChar op :: renderP r (rctx op)) from rfl,
        hbody]
    · rw [if_neg hp, if_neg hp]
      exact hbody

lemma prefA_append_chainB : ∀ (e : Expr) (p : Nat), prefA e p ++ chainB e p = rpn e := by
  intro e
  induction e with
  | num n => intro p; rfl
  | bin op l r ihl ihr =>
    intro p
    rw [prefA, chainB]
    by_cases hp : opPrec op < p
    · rw [if_pos hp, if_pos hp]
      simp
    · rw [if_neg hp, if_neg hp, rpn, ← ihr (rctx op)]
      simp [List.append_assoc]

lemma chainB_mem : ∀ (e : Expr) (p : Nat) (t : Str), t ∈ chainB e p →
    ∃ o : Op, t = opStr o ∧ p ≤ opPrec o := by
  intro e
  induction e with
  | num n => intro p t ht; simp [chainB] at ht
  | bin op l r ihl ihr =>
    intro p t ht
    rw [chainB] at ht
    by_cases hp : opPrec op < p
    · rw [if_pos hp] at ht; simp at ht
    · rw [if_neg hp] at ht
      rcases List.mem_append.mp ht with h | h
      · obtain ⟨o, rfl, ho⟩ := ihr (rctx op) t h
        refine ⟨o, rfl, ?_⟩
        have hrc : opPrec op ≤ rctx op := by rw [rctx]; split <;> omega
        omega
      · rcases List.mem_singleton.mp h with rfl
        exact ⟨op, rfl, by omega⟩

lemma popGE_eq (tok : Str) :
    ∀ (A stk : List Str),
      (∀ t ∈ A, precedence t > precedence tok ∨
        (precedence t = precedence tok ∧ isRightAssociative tok = false)) →
      noPopTop tok stk →
      popGE tok (A ++ stk) = (A, stk) := by
  intro A
  induction A with
  | nil =>
    intro stk _ hstk
    cases stk with
    | nil => rfl
    | cons t rest =>
      rw [List.nil_append, popGE, if_neg]
      exact hstk
  | cons a A2 ih =>
    intro stk hA hstk
    show popGE tok (a :: (A2 ++ stk)) = (a :: A2, stk)
    rw [popGE, if_pos (hA a (List.mem_cons_self a A2)),
      ih stk (fun t ht => hA t (List.mem_cons_of_mem a ht)) hstk]

lemma popParen_eq :
    ∀ (A stk : List Str), (∀ t ∈ A, t ≠ ['(']) →
      popParen (A ++ ['('] :: stk) = some (A, stk) := by
  intro A
  induction A with
  | nil => intro stk _; rfl
  | cons a A2 ih =>
    intro stk hA
    show popParen (a :: (A2 ++ ['('] :: stk)) = some (a :: A2, stk)
    rw [popParen, if_neg (hA a (List.mem_cons_self a A2)),
      ih stk (fun t ht => hA t (List.mem_cons_of_mem a ht))]

lemma headSafe_mono (p q : Nat) (hpq : p ≤ q) :
    ∀ stk : List Str, headSafe p stk → headSafe q stk := by
  intro stk h
  cases stk with
  | nil => trivial
  | cons t rest =>
    rw [headSafe] at h ⊢
    rcases h with h | h | h
    · exact Or.inl h
    · exact Or.inr (Or.inl (by omega))
    · rcases Nat.lt_or_ge p q with hlt | hge
      · exact Or.inr (Or.inl (by omega))
      · have : p = q := by omega
        exact Or.inr (Or.inr ⟨by omega, h.2⟩)

lemma rightassoc_eq_caret (t : Str) (h : isRightAssociative t = true) : t = ['^'] := by
  rw [isRightAssociative] at h
  exact of_decide_eq_true h

lemma headSafe_noPopTop (op : Op) (p : Nat) (stk : List Str)
    (h : headSafe p stk) (hp : p ≤ opPrec op) (hp1 : 1 ≤ p) :
    noPopTop (opStr op) stk := by
  cases stk with
  | nil => trivial
  | cons t rest =>
    rw [headSafe] at h
    rw [noPopTop, precedence_opStr]
    have hopp := opPrec_pos op
    have hople := opPrec_le_three op
    rcases h with h | h | h
    · subst h
      have h0 : precedence ['('] = 0 := rfl
      intro hcon
      rcases hcon with hcon | hcon <;> omega
    · intro hcon
      rcases hcon with hcon | hcon <;> omega
    · have ht : t = ['^'] := rightassoc_eq_caret t h.2
      subst ht
      have h3 : precedence ['^'] = 3 := rfl
      have hop : op = .pow := by
        have : opPrec op = 3 := by omega
        cases op <;> first | rfl | (exfalso; revert this; decide)
      subst hop
      intro hcon
      rcases hcon with hcon | hcon
      · omega
      · rw [isRightAssociative_opStr] at hcon
        exact absurd hcon.2 (by decide)

lemma shunt_step_num (tok : Str) (h : isNumber tok = true) (rest out stk : List Str) :
    shuntToks (tok :: rest) out stk = shuntToks rest (out ++ [tok]) stk := by
  rw [shuntToks, if_pos (by rw [h]; rfl)]

lemma shunt_step_op (op : Op) (rest out stk : List Str) :
    shuntToks (opStr op :: rest) out stk =
      shuntToks rest (out ++ (popGE (opStr op) stk).1)
        (opStr op :: (popGE (opStr op) stk).2) := by
  cases op <;> rfl

lemma shunt_step_lparen (rest out stk : List Str) :
    shuntToks (['('] :: rest) out stk = shuntToks rest out (['('] :: stk) := rfl

lemma shunt_step_rparen (rest out stk o s : List Str)
    (h : popParen stk = some (o, s)) :
    shuntToks ([')'] :: rest) out stk = shuntToks rest (out ++ o) s := by
  have heq : shuntToks ([')'] :: rest) out stk =
      match popParen stk with
      | none => none
      | some (o2, s2) => shuntToks rest (out ++ o2) s2 := rfl
  rw [heq, h]

lemma shunt_tokensP :
    ∀ (e : Expr) (p : Nat) (rest out stk : List Str),
      1 ≤ p → LitsOK e → headSafe p stk →
      shuntToks (tokensP e p ++ rest) out stk =
        shuntToks rest (out ++ prefA e p) (chainB e p ++ stk) := by
  intro e
  induction e with
  | num n =>
    intro p rest out stk hp hL _
    rw [LitsOK] at hL
    have hn : n.toNat ≤ 2 ^ 63 - 1 := by omega
    show shuntToks (natToDigits n.toNat :: rest) out stk = _
    rw [shunt_step_num _ (isNumber_natToDigits n.toNat hn) rest out stk]
    rfl
  | bin op l r ihl ihr =>
    intro p rest out stk hp hL hs
    rw [LitsOK] at hL
    obtain ⟨hLl, hLr⟩ := hL
    have hopp := opPrec_pos op
    have hlp : 1 ≤ lctx op := by rw [lctx]; split <;> omega
    have hrp : 1 ≤ rctx op := by rw [rctx]; split <;> omega
    have hople : opPrec op ≤ lctx op := by rw [lctx]; split <;> omega
    have core : ∀ (stk2 rest2 out2 : List Str), headSafe (lctx op) stk2 →
        noPopTop (opStr op) stk2 →
        shuntToks ((tokensP l (lctx op) ++ opStr op :: tokensP r (rctx op)) ++ rest2)
            out2 stk2 =
          shuntToks rest2 (out2 ++ (rpn l ++ prefA r (rctx op)))
            (chainB r (rctx op) ++ (opStr op :: stk2)) := by
      intro stk2 rest2 out2 hsafe hnp
      rw [List.append_assoc, List.cons_append,
        ihl (lctx op) (opStr op :: (tokensP r (rctx op) ++ rest2)) out2 stk2 hlp hLl hsafe,
        shunt_step_op op]
      have hpop : popGE (opStr op) (chainB l (lctx op) ++ stk2) =
          (chainB l (lctx op), stk2) := by
        apply popGE_eq
        · intro t ht
          obtain ⟨o, rfl, ho⟩ := chainB_mem l (lctx op) t ht
          rw [precedence_opStr, precedence_opStr, isRightAssociative_opStr]
          rw [lctx] at ho
          by_cases hra : rightA op = true
          · rw [if_pos hra] at ho
            exact Or.inl (by omega)
          · rw [if_neg hra] at ho
            rcases Nat.lt_or_ge (opPrec op) (opPrec o) with hlt | hge
            · exact Or.inl hlt
            · exact Or.inr ⟨by omega, by rwa [Bool.not_eq_true] at hra⟩
        · exact hnp
      rw [hpop]
      have hsafe2 : headSafe (rctx op) (opStr op :: stk2) := by
        rw [headSafe, precedence_opStr, isRightAssociative_opStr]
        by_cases hra : rightA op = true
        · exact Or.inr (Or.inr ⟨by rw [rctx, if_pos hra], hra⟩)
        · rw [rctx, if_neg hra]
          exact Or.inr (Or.inl (by omega))
      rw [List.append_assoc out2, prefA_append_chainB l (lctx op),
        ihr (rctx op) rest2 (out2 ++ rpn l) (opStr op :: stk2) hrp hLr hsafe2,
        List.append_assoc]
    by_cases hp2 : opPrec op < p
    · rw [tokensP, if_pos hp2, List.cons_append, List.append_assoc, shunt_step_lparen]
      have hsafe1 : headSafe (lctx op) (['('] :: stk) := by
        rw [headSafe]
        exact Or.inl rfl
      have hnp1 : noPopTop (opStr op) (['('] :: stk) := by
        rw [noPopTop, precedence_opStr]
        have h0 : precedence ['('] = 0 := rfl
        intro hcon
        rcases hcon with hcon | hcon <;> omega
      rw [core (['('] :: stk) ([[')']] ++ rest) out hsafe1 hnp1]
      have hpp : popParen (chainB r (rctx op) ++ (opStr op :: (['('] :: stk))) =
          some (chainB r (rctx op) ++ [opStr op], stk) := by
        have hshape : chainB r (rctx op) ++ (opStr op :: (['('] :: stk)) =
            (chainB r (rctx op) ++ [opStr op]) ++ (['('] :: stk) := by simp
        rw [hshape]
        apply popParen_eq
        intro t ht
        rcases List.mem_append.mp ht with h | h
        · obtain ⟨o, rfl, _⟩ := chainB_mem r (rctx op) t h
          exact opStr_ne_lparen o
        · rcases List.mem_singleton.mp h with rfl
          exact opStr_ne_lparen op
      rw [show ([[')']] ++ rest : List Str) = [')'] :: rest from rfl,
        shunt_step_rparen rest _ _ _ _ hpp]
      rw [prefA, chainB, if_pos hp2, if_pos hp2, rpn,
        ← prefA_append_chainB r (rctx op)]
      simp [List.append_assoc]
    · rw [tokensP, if_neg hp2]
      have hple : p ≤ opPrec op := by omega
      have hsafe1 : headSafe (lctx op) stk :=
        headSafe_mono p (lctx op) (le_trans hple hople) stk hs
      have hnp1 : noPopTop (opStr op) stk := headSafe_noPopTop op p stk hs hple hp
      rw [core stk rest out hsafe1 hnp1,
        prefA, chainB, if_neg hp2, if_neg hp2]
      simp [List.append_assoc]

lemma shuntFlush_no_parens (out stk : List Str)
    (h : ∀ t ∈ stk, t ≠ ['('] ∧ t ≠ [')']) :
    shuntFlush out stk = some (out ++ stk) := by
  rw [shuntFlush, if_neg]
  intro hcon
  rw [List.any_eq_true] at hcon
  obtain ⟨t, ht, hor⟩ := hcon
  rcases Bool.or_eq_true _ _ |>.mp hor with h1 | h1
  · exact absurd (of_decide_eq_true h1) (h t ht).1
  · exact absurd (of_decide_eq_true h1) (h t ht).2

/-- For every expression whose literals fit in a 64-bit `int`, the
converter maps the minimally-parenthesized rendering of `e` exactly to
the reverse Polish form of `e`. -/
lemma infixToPostfix_renderP (e : Expr) (h : LitsOK e) :
    infixToPostfix (render e) = some (rpn e) := by
  rw [infixToPostfix, render, normalize_renderP, tokenize_renderP]
  have hmain := shunt_tokensP e 1 [] [] [] (le_refl 1) h trivial
  rw [List.append_nil] at hmain
  rw [hmain,
    show shuntToks [] ([] ++ prefA e 1) (chainB e 1 ++ [])
      = shuntFlush ([] ++ prefA e 1) (chainB e 1 ++ []) from rfl,
    List.nil_append, List.append_nil,
    shuntFlush_no_parens _ _ (fun t ht => by
      obtain ⟨o, rfl, _⟩ := chainB_mem e 1 t ht
      exact ⟨opStr_ne_lparen o, opStr_ne_rparen o⟩),
    prefA_append_chainB]

lemma wrap64_id (x : Int) (h1 : -(2 ^ 63) ≤ x) (h2 : x < 2 ^ 63) : wrap64 x = x := by
  rw [wrap64]
  omega

lemma evalPostAux_cons (ipow : Int → Int → Int) (tok : Str) (rest : List Str)
    (stack : List Int) (st : Store) :
    evalPostAux ipow (tok :: rest) stack st =
      match stepEval ipow st tok stack with
      | .inl e => (.err e, st)
      | .inr stack2 => evalPostAux ipow rest stack2 st := rfl

lemma stepEval_num (ipow : Int → Int → Int) (st : Store) (tok : Str)
    (stack : List Int) (n : Int) (h : atoi tok = some n) :
    stepEval ipow st tok stack = .inr (n :: stack) := by
  have hnum : isNumber tok = true := by rw [isNumber, h]; rfl
  have hres : resolveValue st tok = .ok n := by
    rw [resolveValue, if_pos hnum, h]
    rfl
  rw [stepEval, if_pos (by rw [hnum]; rfl), hres]

lemma stepEval_op (ipow : Int → Int → Int) (st : Store) (op : Op)
    (a b : Int) (s : List Int) :
    stepEval ipow st (opStr op) (b :: a :: s) =
      match applyOp ipow (opStr op) a b with
      | .ok res => .inr (res :: s)
      | .err e => .inl e := by
  cases op <;> rfl

lemma evalFit_bin (op : Op) (l r : Expr) (v : Int)
    (h : evalFit (.bin op l r) = some v) :
    ∃ a b : Int, evalFit l = some a ∧ evalFit r = some b ∧
      opDenoteM op a b = some v ∧ -(2 ^ 63) ≤ v ∧ v < 2 ^ 63 := by
  rw [evalFit] at h
  rcases hl : evalFit l with _ | a
  · rw [hl] at h; cases h
  rcases hr : evalFit r with _ | b
  · rw [hl, hr] at h; cases h
  rw [hl, hr] at h
  simp only [] at h
  rcases hd : opDenoteM op a b with _ | w
  · rw [hd] at h
    cases h
  · rw [hd, Option.some_bind] at h
    by_cases hw : -(2 ^ 63) ≤ w ∧ w < 2 ^ 63
    · rw [if_pos hw] at h
      injection h with h
      subst h
      exact ⟨a, b, rfl, rfl, hd, hw.1, hw.2⟩
    · rw [if_neg hw] at h
      cases h

lemma evalPost_rpn (ipow : Int → Int → Int) (st : Store) :
    ∀ (e : Expr) (v : Int), evalFit e = some v → PowOK ipow e →
      ∀ (rest : List Str) (stack : List Int),
        evalPostAux ipow (rpn e ++ rest) stack st =
          evalPostAux ipow rest (v :: stack) st := by
  intro e
  induction e with
  | num n =>
    intro v hv _ rest stack
    rw [evalFit] at hv
    by_cases hrange : 0 ≤ n ∧ n < 2 ^ 63
    · rw [if_pos hrange] at hv
      injection hv with hv
      subst hv
      have hn : n.toNat ≤ 2 ^ 63 - 1 := by omega
      have hatoi : atoi (natToDigits n.toNat) = some n := by
        rw [atoi_natToDigits _ hn]
        congr 1
        omega
      show evalPostAux ipow (natToDigits n.toNat :: rest) stack st = _
      rw [evalPostAux_cons, stepEval_num ipow st _ stack n hatoi]
    · rw [if_neg hrange] at hv
      cases hv
  | bin op l r ihl ihr =>
    intro v hv hPow rest stack
    obtain ⟨a, b, hl, hr, hop, hlo, hhi⟩ := evalFit_bin op l r v hv
    rw [PowOK] at hPow
    obtain ⟨hPl, hPr, hPp⟩ := hPow
    rw [rpn, List.append_assoc, List.append_assoc,
      ihl a hl hPl _ stack, ihr b hr hPr _ (a :: stack),
      show ([opStr op] ++ rest : List Str) = opStr op :: rest from rfl,
      evalPostAux_cons, stepEval_op]
    cases op with
    | add =>
      rw [opDenoteM] at hop
      injection hop with hop
      have hwrap : wrap64 (a + b) = v := by rw [hop]; exact wrap64_id v hlo hhi
      rw [show applyOp ipow (opStr .add) a b = .ok (wrap64 (a + b)) from rfl, hwrap]
    | sub =>
      rw [opDenoteM] at hop
      injection hop with hop
      have hwrap : wrap64 (a - b) = v := by rw [hop]; exact wrap64_id v hlo hhi
      rw [show applyOp ipow (opStr .sub) a b = .ok (wrap64 (a - b)) from rfl, hwrap]
    | mul =>
      rw [opDenoteM] at hop
      injection hop with hop
      have hwrap : wrap64 (a * b) = v := by rw [hop]; exact wrap64_id v hlo hhi
      rw [show applyOp ipow (opStr .mul) a b = .ok (wrap64 (a * b)) from rfl, hwrap]
    | div =>
      rw [opDenoteM] at hop
      by_cases hb : b = 0
      · rw [if_pos hb] at hop
        cases hop
      · rw [if_neg hb] at hop
        injection hop with hop
        have hwrap : wrap64 (Int.tdiv a b) = v := by
          rw [hop]
          exact wrap64_id v hlo hhi
        rw [show applyOp ipow (opStr .div) a b =
            (if b = 0 then .err .divisionByZero else .ok (wrap64 (Int.tdiv a b))) from rfl,
          if_neg hb, hwrap]
    | pow =>
      rw [opDenoteM] at hop
      by_cases hb : b < 0
      · rw [if_pos hb] at hop
        cases hop
      · rw [if_neg hb] at hop
        injection hop with hop
        have hipow : ipow a b = a ^ b.toNat := hPp rfl a b hl hr
        rw [show applyOp ipow (opStr .pow) a b = .ok (ipow a b) from rfl, hipow, hop]

lemma LitsOK_of_evalFit : ∀ (e : Expr) (v : Int), evalFit e = some v → LitsOK e := by
  intro e
  induction e with
  | num n =>
    intro v hv
    rw [evalFit] at hv
    rw [LitsOK]
    by_cases hrange : 0 ≤ n ∧ n < 2 ^ 63
    · exact hrange
    · rw [if_neg hrange] at hv
      cases hv
  | bin op l r ihl ihr =>
    intro v hv
    obtain ⟨a, b, hl, hr, _, _, _⟩ := evalFit_bin op l r v hv
    exact ⟨ihl a hl, ihr b hr⟩

/-- C1 (amended): for every balanced expression over non-negative integer
literals, the binary operators `+ - * / ^` and parentheses — rendered with
standard-precedence minimal parenthesization — whose direct evaluation is
defined (no division by zero, no negative exponent) and stays inside the
64-bit `int` range at every node, and on which the float-based `^`
(`int(math.Pow ...)`, abstracted as `ipow`) is exact, running
`infixToPostfix` followed by `evaluatePostfix` yields exactly the direct
evaluation.  (The unrestricted claim is refuted by `c1_counterexample`.) -/
theorem c1_pipeline_correct_within_int64 (ipow : Int → Int → Int) (e : Expr)
    (v : Int) (store : Store) (hP : PowOK ipow e) (hv : evalFit e = some v) :
    pipeline ipow store (render e) = .ok v := by
  have h1 : pipeline ipow store (render e) = evaluatePostfix ipow store (rpn e) := by
    rw [pipeline, infixToPostfix_renderP e (LitsOK_of_evalFit e v hv)]
  rw [h1, evaluatePostfix]
  have h2 := evalPost_rpn ipow store e v hv hP [] []
  rw [List.append_nil] at h2
  rw [h2]
  rfl

/-- Witness for `c1_pipeline_correct_within_int64` on `2^3+4*5` (= 28)
with the exact-power instantiation of `ipow`. -/
theorem c1_pipeline_correct_within_int64_witness :
    PowOK ipow0 exprWit ∧ evalFit exprWit = some 28 ∧
      pipeline ipow0 store0 (render exprWit) = .ok 28 := by
  have hP : PowOK ipow0 exprWit := by
    refine ⟨⟨trivial, trivial, ?_⟩, ⟨trivial, trivial, ?_⟩, ?_⟩
    · intro _ a b ha hb
      have ha2 : (some (2 : Int)) = some a := ha
      have hb2 : (some (3 : Int)) = some b := hb
      injection ha2 with ha2
      injection hb2 with hb2
      subst ha2
      subst hb2
      decide
    · intro h
      exact Op.noConfusion h
    · intro h
      exact Op.noConfusion h
  refine ⟨hP, by decide, ?_⟩
  exact c1_pipeline_correct_within_int64 ipow0 exprWit 28 store0 hP (by decide)

/-- C1 (counterexample): the unrestricted claim fails.  The balanced
expression `9223372036854775807+1` evaluates directly to `2^63`, but the
pipeline returns the wrapped-around 64-bit value `-2^63`. -/
theorem c1_counterexample :
    render exprOfl = "9223372036854775807+1".toList ∧
    evalMath exprOfl = some (2 ^ 63) ∧
    pipeline ipow0 store0 (render exprOfl) = .ok (-(2 ^ 63)) ∧
    (Res.ok (-(2 ^ 63)) : Res) ≠ .ok (2 ^ 63) := by
  refine ⟨by decide, by decide, by decide, by decide⟩

lemma repl2_length_le (x y z : Char) : ∀ l : Str, (repl2 x y z l).length ≤ l.length
  | [] => le_refl _
  | [_] => le_refl _
  | a :: b :: rest => by
    rw [repl2]
    split
    · have := repl2_length_le x y z rest
      simp only [List.length_cons]
      omega
    · have := repl2_length_le x y z (b :: rest)
      simp only [List.length_cons] at this ⊢
      omega

/-- Adequacy of the fuel in `replLoop`: whenever the Go loop would run
another iteration, the replacement strictly shortens the string. -/
lemma repl2_length_lt (x y z : Char) :
    ∀ l : Str, contains2 x y l = true → (repl2 x y z l).length < l.length
  | [], h => nomatch h
  | [_], h => nomatch h
  | a :: b :: rest, h => by
    rw [repl2]
    split
    · have := repl2_length_le x y z rest
      simp only [List.length_cons]
      omega
    · next hab =>
      have h2 : contains2 x y (b :: rest) = true := by
        rw [contains2] at h
        simpa [hab] using h
      have := repl2_length_lt x y z (b :: rest) h2
      simp only [List.length_cons] at this ⊢
      omega

lemma replLoopF_no_pattern (x y z : Char) :
    ∀ (fuel : Nat) (l : Str), l.length < fuel →
      contains2 x y (replLoopF x y z fuel l) = false := by
  intro fuel
  induction fuel with
  | zero => intro l h; omega
  | succ f ih =>
    intro l h
    rw [replLoopF]
    by_cases hc : contains2 x y l = true
    · rw [if_pos hc]
      exact ih _ (by have := repl2_length_lt x y z l hc; omega)
    · rw [if_neg hc]
      exact Bool.not_eq_true _ |>.mp hc

/-- The fuelled loop reaches the Go loop's exit condition: after
`replLoop x y z l` no occurrence of the pattern `xy` remains, exactly as
when the `for strings.Contains` loop in `normalizeOperators` exits. -/
lemma replLoop_no_pattern (x y z : Char) (l : Str) :
    contains2 x y (replLoop x y z l) = false :=
  replLoopF_no_pattern x y z (l.length + 1) l (Nat.lt_succ_self _)
